/-
Verification of the transcript parsing and feature-extraction engine of the
noScribe Excel-visualisation repository.

The Python source is shallowly embedded: a Python `str` is modelled as a
`List Char` (named `PyStr`), Python string operations (`strip`, `split`,
`count`, `replace`, regex matching) are modelled as executable Lean
functions, and the stateful parsing loop of `parse_transcript`
(src/parse_to_excel.py) is modelled as a fold over an explicit parser state.
Rational numbers stand in for Python floats wherever the verified
properties are exact identities (row-normalisation percentages, means).
-/
import Mathlib

/-- Model of a Python `str`: a sequence of unicode characters. -/
abbrev PyStr := List Char

/-- Whitespace predicate shared by Python's `str.strip()`, `str.split()` and
the regex class backslash-s, restricted to the ASCII whitespace characters. -/
def pyIsSpace (c : Char) : Bool :=
  c == ' ' || c == '\t' || c == '\n' || c == '\x0b' || c == '\x0c' || c == '\r'

/-- Model of Python `str.strip()`: remove leading and trailing whitespace. -/
def pyStrip (s : PyStr) : PyStr :=
  ((s.dropWhile pyIsSpace).reverse.dropWhile pyIsSpace).reverse

/-- Accumulator-based worker for `pyWords`: `acc` is the word currently
being collected (in order). -/
def wordsAux : PyStr → PyStr → List PyStr
  | [], acc => if acc = [] then [] else [acc]
  | c :: cs, acc =>
    if pyIsSpace c then
      (if acc = [] then wordsAux cs [] else acc :: wordsAux cs [])
    else wordsAux cs (acc ++ [c])

/-- Model of Python `str.split()` with no separator: split on runs of
whitespace, discarding empty tokens. -/
def pyWords (s : PyStr) : List PyStr := wordsAux s []

/-- Worker for `pyCount`: scan left to right; `skip` counts characters still
to be consumed by the previous match (the scan jump of `str.count`). -/
def pyCountAux (pat : PyStr) : Nat → PyStr → Nat
  | _, [] => 0
  | n + 1, _ :: cs => pyCountAux pat n cs
  | 0, c :: cs =>
    if pat.isPrefixOf (c :: cs) then 1 + pyCountAux pat (pat.length - 1) cs
    else pyCountAux pat 0 cs

/-- Model of Python `str.count(pat)`: number of non-overlapping occurrences,
scanning left to right (for non-empty `pat`, as used in the source). -/
def pyCount (pat s : PyStr) : Nat := pyCountAux pat 0 s

/-- Worker for `pyReplace`: scan left to right; `skip` counts characters
still to be dropped from the previous replaced occurrence. -/
def pyReplaceAux (pat repl : PyStr) : Nat → PyStr → PyStr
  | _, [] => []
  | n + 1, _ :: cs => pyReplaceAux pat repl n cs
  | 0, c :: cs =>
    if !pat.isEmpty && pat.isPrefixOf (c :: cs) then
      repl ++ pyReplaceAux pat repl (pat.length - 1) cs
    else c :: pyReplaceAux pat repl 0 cs

/-- Model of Python `str.replace(pat, repl)` for non-empty `pat`: replace
every non-overlapping occurrence, scanning left to right. -/
def pyReplace (pat repl s : PyStr) : PyStr := pyReplaceAux pat repl 0 s

/-- Model of pandas `Series.unique()`: the distinct values in order of first
occurrence. -/
def pyUnique (l : List PyStr) : List PyStr :=
  l.foldl (fun acc x => if x ∈ acc then acc else acc ++ [x]) []

/-- Model of the regex `^(S\d{2}):\s*(.*)` of `parse_transcript`
(src/parse_to_excel.py line 59), applied with `re.match` to an
already-stripped line: on success returns the captured speaker tag
(group 1) and the remainder text after the colon with leading whitespace
consumed by the greedy backslash-s-star (group 2). -/
def speaker_pattern_match (l : PyStr) : Option (PyStr × PyStr) :=
  match l with
  | a :: d1 :: d2 :: c :: rest =>
    if a = 'S' ∧ c = ':' ∧ d1.isDigit ∧ d2.isDigit then
      some (['S', d1, d2], rest.dropWhile pyIsSpace)
    else none
  | _ => none

/-- One logical speaker turn: the `{"Speaker": ..., "Text": ...}` dict
appended to `data` in `parse_transcript`. -/
structure Turn where
  speaker : PyStr
  text : PyStr
deriving DecidableEq

/-- Mutable state of the `parse_transcript` loop: the `start_parsing` flag,
the open turn `(current_speaker, current_text)` (`none` when
`current_speaker is None`), and the emitted `data` list. -/
structure PState where
  started : Bool
  cur : Option (PyStr × PyStr)
  data : List Turn
deriving DecidableEq

/-- Finalisation of the open turn: the `data.append({...: current_text.strip()})`
performed when a new tag line arrives or input ends. -/
def flushCur : Option (PyStr × PyStr) → List Turn
  | some (c, t) => [⟨c, pyStrip t⟩]
  | none => []

/-- Continuation append: `current_text += " " + line` guarded by
`current_speaker is not None`. -/
def contAppend : Option (PyStr × PyStr) → PyStr → Option (PyStr × PyStr)
  | some (c, t), l => some (c, t ++ ' ' :: l)
  | none, _ => none

/-- One iteration of the `for line in lines` loop of `parse_transcript`
(src/parse_to_excel.py lines 66-94): strip the line, skip blanks, flip
`start_parsing` on a literal `(..)` or `(.)` line, skip pre-start non-tag
lines, then either open a new turn (flushing the previous one) on a tag
match or append a continuation to the open turn. -/
def pstep (st : PState) (raw : PyStr) : PState :=
  let line := pyStrip raw
  if line = [] then st
  else
    let started1 := st.started || line == "(..)".toList || line == "(.)".toList
    if !started1 && (speaker_pattern_match line).isNone then st
    else
      match speaker_pattern_match line with
      | some (spk, rem) =>
        { started := true, cur := some (spk, rem), data := st.data ++ flushCur st.cur }
      | none =>
        { started := true, cur := contAppend st.cur line, data := st.data }

/-- The turn-assembly phase of `parse_transcript`: fold the loop body over
all lines, then flush the last open turn (lines 96-101). -/
def parseTurns (lines : List PyStr) : List Turn :=
  let st := lines.foldl pstep ⟨false, none, []⟩
  st.data ++ flushCur st.cur

/-- Scan for the closing `//` of an overlap annotation: the least offset at
which `//` occurs, provided no newline intervenes (the regex `.` of
`//(.*?)//` does not match a newline). -/
def findClose : PyStr → Option Nat
  | [] => none
  | c :: cs =>
    if c = '/' ∧ cs.head? = some '/' then some 0
    else if c = '\n' then none
    else (findClose cs).map (· + 1)

/-- Worker for `overlapCount`: scan for a `//` opener; on a successful lazy
match of `//(.*?)//` skip past the whole match, otherwise retry at the next
position, exactly as the regex engine's `findall` scan does. -/
def overlapAux : Nat → PyStr → Nat
  | _, [] => 0
  | n + 1, _ :: cs => overlapAux n cs
  | 0, c :: cs =>
    if c == '/' && cs.head? == some '/' then
      match findClose cs.tail with
      | some j => 1 + overlapAux (j + 3) cs
      | none => overlapAux 0 cs
    else overlapAux 0 cs

/-- Model of `len(re.findall(r"//(.*?)//", text))` (line 109): number of
non-overlapping lazily-matched double-slash pairs. -/
def overlapCount (s : PyStr) : Nat := overlapAux 0 s

/-- Word character for the regex word-boundary: alphanumeric or underscore. -/
def isWordChar (c : Char) : Bool := c.isAlpha || c.isDigit || c == '_'

/-- Case-insensitive prefix test (regex `re.IGNORECASE`). -/
def ciPrefix : PyStr → PyStr → Bool
  | [], _ => true
  | _ :: _, [] => false
  | p :: ps, c :: cs => (p.toLower == c.toLower) && ciPrefix ps cs

/-- The fixed filler-word alternation `uh|um|hmm|yeah|like` in source order. -/
def fillerWords : List PyStr :=
  ["uh".toList, "um".toList, "hmm".toList, "yeah".toList, "like".toList]

/-- Attempt to match one filler word at the current position with a trailing
word boundary; returns the match length. -/
def fillerAt (l : PyStr) : Option Nat :=
  (fillerWords.filter
    (fun w => ciPrefix w l &&
      (match (l.drop w.length).head? with
       | some c => !isWordChar c
       | none => true))).head?.map List.length

/-- Scanner for `len(disfluency_pattern.findall(text))` (lines 119-120):
walk the text tracking whether the previous character is a word character
(for the leading word boundary), counting filler-word matches; `skip`
counts characters of the current match still to be consumed (all of which
are word characters). -/
def disAux : Bool → Nat → PyStr → Nat
  | _, _, [] => 0
  | _, n + 1, _ :: cs => disAux true n cs
  | prevWord, 0, c :: cs =>
    if !prevWord then
      match fillerAt (c :: cs) with
      | some k => 1 + disAux true (k - 1) cs
      | none => disAux (isWordChar c) 0 cs
    else disAux (isWordChar c) 0 cs

/-- Model of `len(disfluency_pattern.findall(text))`. -/
def disfluencyCount (s : PyStr) : Nat := disAux false 0 s

/-- One enriched row of the `data` list after the feature-extraction loop of
`parse_transcript` (src/parse_to_excel.py lines 104-120). `hasOverlap`
models the `"Yes"/"No"` column as the boolean `overlaps > 0`. -/
structure FeatureRecord where
  speaker : PyStr
  text : PyStr
  wordCount : Nat
  hasOverlap : Bool
  shortPauses : Nat
  longPauses : Nat
  disfluencies : Nat
deriving DecidableEq

/-- The feature-extraction loop body applied to one turn (lines 104-120). -/
def extractFeatures (t : Turn) : FeatureRecord :=
  { speaker := t.speaker
    text := t.text
    wordCount := (pyWords t.text).length
    hasOverlap := 0 < overlapCount t.text
    shortPauses := pyCount "(.)".toList t.text
    longPauses := pyCount "(..)".toList t.text + pyCount "(...)".toList t.text
    disfluencies := disfluencyCount t.text }

/-- Full model of `parse_transcript` (src/parse_to_excel.py lines 52-122):
assemble turns from the raw lines, then enrich each with its features. -/
def parse_transcript (lines : List PyStr) : List FeatureRecord :=
  (parseTurns lines).map extractFeatures

/-- Round-half-to-even on an exact rational, the semantics of Python's
built-in `round` (representation error of binary floats aside). -/
def roundHalfEven (x : ℚ) : ℤ :=
  let f := ⌊x⌋
  let r := x - f
  if r < 1/2 then f
  else if 1/2 < r then f + 1
  else if f % 2 = 0 then f else f + 1

/-- Model of Python `round(x, 1)`. -/
def pyRound1 (x : ℚ) : ℚ := (roundHalfEven (10 * x) : ℚ) / 10

/-- Per-speaker aggregate, mirroring the `stats[s]` dict built both in
`apply_excel_styling` (src/parse_to_excel.py lines 178-188) and in
`export_latex_tables` (lines 310-320). -/
structure SpeakerStats where
  totalTurns : Nat
  totalWords : Nat
  avgWords : ℚ
  overlaps : Nat
  shortPauses : Nat
  longPauses : Nat
  disfluencies : Nat
deriving DecidableEq

/-- The aggregation body for one speaker `s`: filter the records to the
speaker's group (`df[df["Speaker"] == s]`) and reduce.  The
`if len > 0 else 0` fallback on the mean is reproduced verbatim. -/
def speakerStats (df : List FeatureRecord) (s : PyStr) : SpeakerStats :=
  let sdf := df.filter (fun r => r.speaker = s)
  { totalTurns := sdf.length
    totalWords := (sdf.map (·.wordCount)).sum
    avgWords :=
      if 0 < sdf.length then
        pyRound1 (((sdf.map (·.wordCount)).sum : ℚ) / (sdf.length : ℚ))
      else 0
    overlaps := (sdf.filter (·.hasOverlap)).length
    shortPauses := (sdf.map (·.shortPauses)).sum
    longPauses := (sdf.map (·.longPauses)).sum
    disfluencies := (sdf.map (·.disfluencies)).sum }

/-- The unique speaker values the aggregator and the transition builder
group by: `list(df["Speaker"].unique())`. -/
def uniqueSpeakers (df : List FeatureRecord) : List PyStr :=
  pyUnique (df.map (·.speaker))

/-- Count of cell `transitions[a][b]` after the pairwise walk of the
transition-model builder (src/visualize_data.py lines 151-157): the number
of consecutive positions `(i, i+1)` holding speakers `(a, b)`, counted only
when the two speakers differ. -/
def transCount (seq : List PyStr) (a b : PyStr) : Nat :=
  ((seq.zip seq.tail).filter (fun p => p.1 ≠ p.2 ∧ p.1 = a ∧ p.2 = b)).length

/-- Row total `sum(transitions[a].values())` (line 163): the speakers list
is the deduplicated speaker column, one dict key per unique speaker. -/
def transRowTotal (seq : List PyStr) (a : PyStr) : Nat :=
  ((pyUnique seq).map (fun t => transCount seq a t)).sum

/-- One row of the percentage matrix (src/visualize_data.py lines 160-167):
row-normalise to percentages when the row total is positive, else an
all-zero row.  Exact rationals stand in for the Python floats. -/
def transitionRow (seq : List PyStr) (a : PyStr) : List ℚ :=
  if 0 < transRowTotal seq a then
    (pyUnique seq).map
      (fun t => (transCount seq a t : ℚ) / (transRowTotal seq a : ℚ) * 100)
  else (pyUnique seq).map (fun _ => 0)

/-- The annotation-stripping step of the lexical pass (src/parse_to_excel.py
line 440): `text.replace("(.)", "").replace("(..)", "").replace("(...)", "")
.replace("//", "")`. -/
def clean_text (t : PyStr) : PyStr :=
  pyReplace "//".toList []
    (pyReplace "(...)".toList []
      (pyReplace "(..)".toList []
        (pyReplace "(.)".toList [] t)))

/-- Outcome of one evaluation of the non-atomic `LexicalRichness` try block
(src/parse_to_excel.py lines 450-457), which appends to `ttrs` midway
through the guarded region: `fail` models an exception raised by the
constructor or by `lex.ttr` itself (its value never appended, so the
handler runs on empty partial progress); `failAfterTtr v` models `lex.ttr`
succeeding with value `v` — already appended to `ttrs` — before
`lex.mtld(threshold=0.72)` raises; `ok v m` models full success. -/
inductive LexOutcome where
  | fail : LexOutcome
  | failAfterTtr : ℚ → LexOutcome
  | ok : ℚ → ℚ → LexOutcome
deriving DecidableEq

/-- The lexical-metric loop of `main` (src/parse_to_excel.py lines 437-457),
with the two external metric computations abstracted as oracles: `fkO`
models the atomic `flesch_kincaid_grade` try block (`none` is the caught
exception, substituted by 0 before the append), and `lexO` models the
non-atomic `LexicalRichness` block. On `fail` the handler appends 0 to
`ttrs` and to `mtlds`; on `failAfterTtr v` the block has already executed
`ttrs.append(lex.ttr)` when the handler appends 0 to both lists, so `ttrs`
grows by two entries for that one text; on `ok v m` the two values are
appended. Returns the three accumulator lists `(ttrs, mtlds, fks)`. -/
def lexLoop (fkO : PyStr → Option ℚ) (lexO : PyStr → LexOutcome) :
    (List ℚ × List ℚ × List ℚ) → List PyStr → (List ℚ × List ℚ × List ℚ)
  | acc, [] => acc
  | acc, t :: ts =>
    let c := clean_text t
    let fk := (fkO c).getD 0
    match lexO c with
    | LexOutcome.fail =>
        lexLoop fkO lexO (acc.1 ++ [0], acc.2.1 ++ [0], acc.2.2 ++ [fk]) ts
    | LexOutcome.failAfterTtr v =>
        lexLoop fkO lexO (acc.1 ++ [v, 0], acc.2.1 ++ [0], acc.2.2 ++ [fk]) ts
    | LexOutcome.ok v m =>
        lexLoop fkO lexO (acc.1 ++ [v], acc.2.1 ++ [m], acc.2.2 ++ [fk]) ts

/-- The lexical pass over the whole Text column, starting from the empty
accumulators `ttrs, mtlds, fks = [], [], []`.  The loop is followed in the
source by `df["TTR"] = ttrs` (line 459), which requires `ttrs` to have one
entry per text and raises a length-mismatch error otherwise. -/
def lexPass (fkO : PyStr → Option ℚ) (lexO : PyStr → LexOutcome)
    (texts : List PyStr) : List ℚ × List ℚ × List ℚ :=
  lexLoop fkO lexO ([], [], []) texts

/-- Join of a list of pieces with single separating spaces, the shape that
the accumulator `current_text` takes: the turn-start remainder followed by
each continuation line appended as `" " + line`. -/
def sjoin : List PyStr → PyStr
  | [] => []
  | [p] => p
  | p :: q :: ps => p ++ ' ' :: sjoin (q :: ps)

/-- Provenance of a piece of an accumulated turn text within input `lines`:
either the remainder of a matched tag line, or a stripped non-tag line. -/
def pieceFrom (lines : List PyStr) (p : PyStr) : Prop :=
  (∃ l ∈ lines, ∃ spk, speaker_pattern_match (pyStrip l) = some (spk, p)) ∨
  (∃ l ∈ lines, p = pyStrip l ∧ speaker_pattern_match p = none)

/-- Modelled from the spec: the claim's reading of a turn-start line as
"two-letter-plus-two-digit tag, colon, optional text" — two letters, then
two digits, then a colon, at the beginning of the line. -/
def twoLetterTwoDigitTagStart (l : PyStr) : Bool :=
  match l with
  | a :: b :: d1 :: d2 :: ':' :: _ => a.isAlpha && b.isAlpha && d1.isDigit && d2.isDigit
  | _ => false

/-- Tag shape actually implemented by the source regex: the literal letter
`S`, exactly two digits, a colon, then optional text. -/
def sTagStart (l : PyStr) : Bool :=
  match l with
  | a :: d1 :: d2 :: c :: _ => a == 'S' && c == ':' && d1.isDigit && d2.isDigit
  | _ => false

/-- Spec-side occurrence count of a token: the number of positions at which
the token occurs as a substring (counting every starting position). -/
def occAll (pat : PyStr) : PyStr → Nat
  | [] => 0
  | c :: cs => (if pat.isPrefixOf (c :: cs) then 1 else 0) + occAll pat cs

/- ───────────────────────── sanity evaluations ───────────────────────── -/

/-- Sanity check: a mid-transcript pause-marker line after a turn has
started is appended to the open turn as continuation text, exactly as the
source control flow dictates. -/
theorem sanity_parse_pause_line_is_continuation :
    parseTurns ["S00: Hello there.".toList, "(..)".toList,
      "S01: Uh, yeah //I think// so.".toList] =
    [⟨"S00".toList, "Hello there. (..)".toList⟩,
     ⟨"S01".toList, "Uh, yeah //I think// so.".toList⟩] := by decide

/-- Sanity check: header and blank lines are skipped, continuation lines
keep their internal whitespace verbatim, and tag-line remainders are
stripped of surrounding whitespace. -/
theorem sanity_parse_header_and_continuation :
    parseTurns ["header line".toList, "  ".toList, "S00: a".toList,
      "cont  line".toList, "S01:  b ".toList] =
    [⟨"S00".toList, "a cont  line".toList⟩, ⟨"S01".toList, "b".toList⟩] := by decide

/-- Sanity check of the feature extractors on an annotated turn. -/
theorem sanity_extract_features :
    (extractFeatures ⟨"S01".toList,
      "Uh, yeah //I think// so. (..) x (...)".toList⟩).disfluencies = 2 ∧
    (extractFeatures ⟨"S01".toList,
      "Uh, yeah //I think// so. (..) x (...)".toList⟩).longPauses = 2 ∧
    (extractFeatures ⟨"S01".toList, "a b  c".toList⟩).wordCount = 3 ∧
    (extractFeatures ⟨"S01".toList, "x //y// z".toList⟩).hasOverlap = true := by decide

/- ───────────────────────── helper lemmas ───────────────────────── -/

/-- A blank (all-whitespace) line leaves the state unchanged. -/
lemma pstep_blank (st : PState) (raw : PyStr) (hb : pyStrip raw = []) :
    pstep st raw = st := by
  unfold pstep; simp [hb]

/-- A step on a tag line: flush the open turn and open the new one. -/
lemma pstep_tag (st : PState) (raw spk rem : PyStr)
    (hm : speaker_pattern_match (pyStrip raw) = some (spk, rem)) :
    pstep st raw = ⟨true, some (spk, rem), st.data ++ flushCur st.cur⟩ := by
  have hb : pyStrip raw ≠ [] := by
    intro h; rw [h] at hm; simp [speaker_pattern_match] at hm
  unfold pstep
  simp [hb, hm]

/-- A pre-start non-tag line other than the two pause markers is skipped. -/
lemma pstep_skip (st : PState) (raw : PyStr)
    (hs : st.started = false)
    (hm : speaker_pattern_match (pyStrip raw) = none)
    (h1 : pyStrip raw ≠ "(.)".toList) (h2 : pyStrip raw ≠ "(..)".toList) :
    pstep st raw = st := by
  unfold pstep
  by_cases hb : pyStrip raw = []
  · simp [hb]
  · simp [hb, hs, hm, h1, h2]
    intro h
    exact absurd (h h2) h1

/-- A post-start (or pause-marker) non-tag, non-blank line is appended as a
continuation. -/
lemma pstep_cont (st : PState) (raw : PyStr)
    (hb : pyStrip raw ≠ [])
    (hm : speaker_pattern_match (pyStrip raw) = none)
    (hst : st.started = true ∨ pyStrip raw = "(.)".toList ∨ pyStrip raw = "(..)".toList) :
    pstep st raw = ⟨true, contAppend st.cur (pyStrip raw), st.data⟩ := by
  unfold pstep
  rcases hst with h | h | h <;> simp [hb, hm, h] <;> rfl

/-- Branch analysis of one loop iteration: every step either leaves the
state unchanged, opens a new turn on a tag match, or appends a
continuation. -/
lemma pstep_cases (st : PState) (raw : PyStr) :
    pstep st raw = st ∨
    (∃ spk rem, speaker_pattern_match (pyStrip raw) = some (spk, rem) ∧
      pstep st raw = ⟨true, some (spk, rem), st.data ++ flushCur st.cur⟩) ∨
    (pyStrip raw ≠ [] ∧ speaker_pattern_match (pyStrip raw) = none ∧
      pstep st raw = ⟨true, contAppend st.cur (pyStrip raw), st.data⟩) := by
  by_cases hb : pyStrip raw = []
  · exact Or.inl (pstep_blank st raw hb)
  rcases hm : speaker_pattern_match (pyStrip raw) with _ | ⟨spk, rem⟩
  · rcases hs : st.started with _ | _
    · by_cases h1 : pyStrip raw = "(.)".toList
      · exact Or.inr (Or.inr ⟨hb, rfl, pstep_cont st raw hb hm (Or.inr (Or.inl h1))⟩)
      by_cases h2 : pyStrip raw = "(..)".toList
      · exact Or.inr (Or.inr ⟨hb, rfl, pstep_cont st raw hb hm (Or.inr (Or.inr h2))⟩)
      exact Or.inl (pstep_skip st raw hs hm h1 h2)
    · exact Or.inr (Or.inr ⟨hb, rfl, pstep_cont st raw hb hm (Or.inl hs)⟩)
  · exact Or.inr (Or.inl ⟨spk, rem, rfl, pstep_tag st raw spk rem hm⟩)

/-- A state that has not started has an empty open turn and no emitted data;
this invariant is preserved from the initial state. -/
lemma foldl_not_started (lines : List PyStr) (st : PState)
    (h : st.started = false → st.cur = none ∧ st.data = []) :
    (List.foldl pstep st lines).started = false →
    (List.foldl pstep st lines).cur = none ∧ (List.foldl pstep st lines).data = [] := by
  induction lines generalizing st with
  | nil => exact h
  | cons l ls ih =>
    intro hf
    refine ih (pstep st l) ?_ hf
    intro hns
    rcases pstep_cases st l with heq | ⟨spk, rem, hm, heq⟩ | ⟨hb, hm, heq⟩
    · rw [heq] at hns ⊢; exact h hns
    · rw [heq] at hns; simp at hns
    · rw [heq] at hns; simp at hns

/- ───────────────────────── claim C2 ───────────────────────── -/

/-- C2 counterexample: the claim says a line is recognised as a turn start
iff it begins with a two-letter-plus-two-digit tag and a colon. The line
`AB01: hi` begins with exactly such a tag yet the classifier rejects it,
because the source regex `^(S\d{2}):` fixes the first character to the
single literal letter `S`. A leading-whitespace remainder is also consumed:
`S00:  hi` yields the remainder `hi`, not `  hi`. -/
theorem c2_counterexample :
    twoLetterTwoDigitTagStart "AB01: hi".toList = true ∧
    speaker_pattern_match "AB01: hi".toList = none ∧
    speaker_pattern_match "S00:  hi".toList = some ("S00".toList, "hi".toList) := by
  decide

/-- C2 amended: the classifier recognises a line as a turn-start line iff
it begins with the literal letter `S`, exactly two digits and a colon; the
text after the colon with its leading whitespace removed (possibly empty)
becomes the opened turn's remainder. -/
theorem c2_amended_tag_shape : ∀ l : PyStr,
    ((speaker_pattern_match l).isSome = sTagStart l) ∧
    (∀ spk rem, speaker_pattern_match l = some (spk, rem) →
      ∃ d1 d2 rest, l = 'S' :: d1 :: d2 :: ':' :: rest ∧ d1.isDigit ∧ d2.isDigit ∧
        spk = ['S', d1, d2] ∧ rem = rest.dropWhile pyIsSpace) := by
  intro l
  rcases l with _ | ⟨a, _ | ⟨b, _ | ⟨c, _ | ⟨d, rest⟩⟩⟩⟩
  · exact ⟨by simp [speaker_pattern_match, sTagStart], by simp [speaker_pattern_match]⟩
  · exact ⟨by simp [speaker_pattern_match, sTagStart], by simp [speaker_pattern_match]⟩
  · exact ⟨by simp [speaker_pattern_match, sTagStart], by simp [speaker_pattern_match]⟩
  · exact ⟨by simp [speaker_pattern_match, sTagStart], by simp [speaker_pattern_match]⟩
  by_cases h : a = 'S' ∧ d = ':' ∧ b.isDigit ∧ c.isDigit
  · have hm : speaker_pattern_match (a :: b :: c :: d :: rest) =
        some (['S', b, c], rest.dropWhile pyIsSpace) := by
      simp only [speaker_pattern_match]
      rw [if_pos h]
    obtain ⟨h1, h2, h3, h4⟩ := h
    constructor
    · rw [hm]
      simp [sTagStart, h1, h2, h3, h4]
    · intro spk rem hsome
      rw [hm] at hsome
      injection hsome with hpair
      have hspk : spk = ['S', b, c] := (congrArg Prod.fst hpair).symm
      have hrem : rem = rest.dropWhile pyIsSpace := (congrArg Prod.snd hpair).symm
      subst h1; subst h2
      exact ⟨b, c, rest, rfl, h3, h4, hspk, hrem⟩
  · have hm : speaker_pattern_match (a :: b :: c :: d :: rest) = none := by
      simp only [speaker_pattern_match]
      rw [if_neg h]
    constructor
    · rw [hm]
      simp only [Option.isSome_none, sTagStart]
      symm
      simp only [Bool.and_eq_false_iff, beq_eq_false_iff_ne, ne_eq,
        Bool.not_eq_true]
      by_cases h1 : a = 'S'
      · by_cases h2 : d = ':'
        · by_cases h3 : b.isDigit
          · right
            rw [Bool.eq_false_iff]
            intro hc
            exact h ⟨h1, h2, h3, hc⟩
          · left; right
            simp [h3]
        · left; left; right
          exact fun hc => h2 hc
      · left; left; left
        exact fun hc => h1 hc
    · intro spk rem hsome
      rw [hm] at hsome
      exact absurd hsome (by simp)

/-- C2 amended witness at a concrete tag line. -/
theorem c2_amended_tag_shape_witness :
    ∃ d1 d2 rest, "S07:  hi".toList = 'S' :: d1 :: d2 :: ':' :: rest ∧
      d1.isDigit ∧ d2.isDigit ∧ "S07".toList = ['S', d1, d2] ∧
      "hi".toList = rest.dropWhile pyIsSpace :=
  (c2_amended_tag_shape "S07:  hi".toList).2 "S07".toList "hi".toList (by decide)

/- ───────────────────────── claim C3 ───────────────────────── -/

/-- C3 counterexample: the claim says a pre-start line consisting exactly of
the long-pause marker `(...)` flips the classifier into started mode, but
the source (line 71) tests only `(..)` and `(.)`, so after the single input
line `(...)` the parser has still not started. -/
theorem c3_counterexample :
    (List.foldl pstep ⟨false, none, []⟩ ["(...)".toList]).started = false := by
  decide

/-- C3 amended: before parsing has started, every non-blank non-tag line is
ignored (state unchanged) — including a line consisting exactly of the
triple-dot marker `(...)` — except that a line exactly `(.)` or `(..)`
flips the classifier into started mode while contributing no turn content
and never being attached to any turn (the open-turn slot stays empty and
the emitted data is untouched). -/
theorem c3_amended_prestart_lines : ∀ (pre : List PyStr) (raw : PyStr),
    (List.foldl pstep ⟨false, none, []⟩ pre).started = false →
    ((pyStrip raw ≠ [] → speaker_pattern_match (pyStrip raw) = none →
      pyStrip raw ≠ "(.)".toList → pyStrip raw ≠ "(..)".toList →
      pstep (List.foldl pstep ⟨false, none, []⟩ pre) raw =
        List.foldl pstep ⟨false, none, []⟩ pre) ∧
     ((pyStrip raw = "(.)".toList ∨ pyStrip raw = "(..)".toList) →
      pstep (List.foldl pstep ⟨false, none, []⟩ pre) raw =
        ⟨true, none, (List.foldl pstep ⟨false, none, []⟩ pre).data⟩ ∧
      (List.foldl pstep ⟨false, none, []⟩ pre).data = [])) := by
  intro pre raw hns
  obtain ⟨hcur, hdata⟩ :=
    foldl_not_started pre ⟨false, none, []⟩ (fun _ => ⟨rfl, rfl⟩) hns
  constructor
  · intro hb hm h1 h2
    exact pstep_skip _ raw hns hm h1 h2
  · intro hp
    have hb : pyStrip raw ≠ [] := by
      rcases hp with h | h <;> rw [h] <;> decide
    have hm : speaker_pattern_match (pyStrip raw) = none := by
      rcases hp with h | h <;> rw [h] <;> decide
    refine ⟨?_, hdata⟩
    rw [pstep_cont _ raw hb hm (Or.inr hp), hcur]
    rfl

/-- C3 amended witness: after a header line the parser has not started; a
`(...)` line is then ignored outright, and a `(..)` line only flips the
started flag. -/
theorem c3_amended_prestart_lines_witness :
    pstep (List.foldl pstep ⟨false, none, []⟩ ["a header".toList]) "(...)".toList =
      List.foldl pstep ⟨false, none, []⟩ ["a header".toList] ∧
    pstep (List.foldl pstep ⟨false, none, []⟩ ["a header".toList]) "(..)".toList =
      ⟨true, none, (List.foldl pstep ⟨false, none, []⟩ ["a header".toList]).data⟩ :=
  ⟨(c3_amended_prestart_lines ["a header".toList] "(...)".toList (by decide)).1
      (by decide) (by decide) (by decide) (by decide),
   ((c3_amended_prestart_lines ["a header".toList] "(..)".toList (by decide)).2
      (Or.inr (by decide))).1⟩

/- ───────────────────────── claim C5 ───────────────────────── -/

/-- C5: a turn-start line whose remainder after the colon is empty still
opens a turn, and when input ends with no continuation line following, the
assembler still emits that empty-text turn: appending the bare tag line
`Sdd:` to any input appends exactly one turn with empty text. -/
theorem c5_empty_turn_emitted : ∀ (pre : List PyStr) (d1 d2 : Char),
    d1.isDigit → d2.isDigit →
    parseTurns (pre ++ [['S', d1, d2, ':']]) =
      parseTurns pre ++ [⟨['S', d1, d2], []⟩] := by
  intro pre d1 d2 h1 h2
  have hstrip : pyStrip ['S', d1, d2, ':'] = ['S', d1, d2, ':'] := by
    unfold pyStrip
    rw [List.dropWhile_cons_of_neg (by decide)]
    rw [show (['S', d1, d2, ':'] : PyStr).reverse = [':', d2, d1, 'S'] from by simp]
    rw [List.dropWhile_cons_of_neg (by decide)]
    simp
  have hm : speaker_pattern_match ['S', d1, d2, ':'] = some (['S', d1, d2], []) := by
    show (if 'S' = 'S' ∧ ':' = ':' ∧ d1.isDigit ∧ d2.isDigit then
        some ((['S', d1, d2] : PyStr), List.dropWhile pyIsSpace ([] : PyStr)) else none) =
      some (['S', d1, d2], [])
    rw [if_pos ⟨rfl, rfl, h1, h2⟩]
    rfl
  show (List.foldl pstep ⟨false, none, []⟩ (pre ++ [['S', d1, d2, ':']])).data ++
      flushCur (List.foldl pstep ⟨false, none, []⟩ (pre ++ [['S', d1, d2, ':']])).cur =
    ((List.foldl pstep ⟨false, none, []⟩ pre).data ++
      flushCur (List.foldl pstep ⟨false, none, []⟩ pre).cur) ++ [⟨['S', d1, d2], []⟩]
  rw [List.foldl_append, List.foldl_cons, List.foldl_nil]
  rw [pstep_tag _ _ _ _ (by rw [hstrip]; exact hm)]
  simp [flushCur, pyStrip, List.append_assoc]

/-- C5 witness at a concrete input. -/
theorem c5_empty_turn_emitted_witness :
    parseTurns (["S00: hi".toList] ++ [['S', '0', '7', ':']]) =
      parseTurns ["S00: hi".toList] ++ [⟨['S', '0', '7'], []⟩] :=
  c5_empty_turn_emitted ["S00: hi".toList] '0' '7' (by decide) (by decide)

/- ───────────────────────── claim C7 ───────────────────────── -/

/-- Helper for C7: when no line ever matches the speaker pattern, the fold
keeps the open-turn slot empty and never emits data. -/
lemma foldl_no_tag (lines : List PyStr) : ∀ st : PState,
    (∀ l ∈ lines, speaker_pattern_match (pyStrip l) = none) → st.cur = none →
    (List.foldl pstep st lines).cur = none ∧
    (List.foldl pstep st lines).data = st.data := by
  induction lines with
  | nil => exact fun st _ hc => ⟨hc, rfl⟩
  | cons l ls ih =>
    intro st h hc
    have hm : speaker_pattern_match (pyStrip l) = none := h l (List.mem_cons_self l ls)
    have hstep : (pstep st l).cur = none ∧ (pstep st l).data = st.data := by
      rcases pstep_cases st l with heq | ⟨spk, rem, hm', heq⟩ | ⟨hb, hm', heq⟩
      · rw [heq]; exact ⟨hc, rfl⟩
      · rw [hm] at hm'; cases hm'
      · rw [heq]; simp [hc, contAppend]
    obtain ⟨hc', hd'⟩ := hstep
    obtain ⟨hc'', hd''⟩ := ih (pstep st l) (fun x hx => h x (List.mem_cons_of_mem l hx)) hc'
    exact ⟨by rw [List.foldl_cons]; exact hc'',
           by rw [List.foldl_cons]; rw [hd'', hd']⟩

/-- C7: when no recognizable speaker-tag line ever appears in the input
(including the empty transcript), the engine returns an empty sequence of
records; the model is a total function, so no exception is possible. -/
theorem c7_no_tags_empty_result : ∀ lines : List PyStr,
    (∀ l ∈ lines, speaker_pattern_match (pyStrip l) = none) →
    parse_transcript lines = [] := by
  intro lines h
  obtain ⟨hc, hd⟩ := foldl_no_tag lines ⟨false, none, []⟩ h rfl
  have hpt : parseTurns lines = [] := by
    show (List.foldl pstep ⟨false, none, []⟩ lines).data ++
      flushCur (List.foldl pstep ⟨false, none, []⟩ lines).cur = []
    rw [hc, hd]
    rfl
  unfold parse_transcript
  rw [hpt]
  rfl

/-- C7 witness: a transcript of headers, pause markers and blank lines with
no tag line yields zero records. -/
theorem c7_no_tags_empty_result_witness :
    parse_transcript ["INTERVIEW 3".toList, "".toList, "(.)".toList,
      "some preamble".toList] = [] :=
  c7_no_tags_empty_result _ (by decide)

/- ───────────────────────── claim C8 ───────────────────────── -/

/-- C8: the claim's failure policy is broken by a reachable partial-failure
path of the source. On a very short cleaned text, `lex.ttr` succeeds and
`ttrs.append(lex.ttr)` executes before `lex.mtld(threshold=0.72)` raises
(the short-text failure the source's own comment warns about); the handler
then appends 0 to both lists, so `ttrs` receives two entries for that one
text. Evaluated at a two-text batch whose second text takes that path, the
loop returns three TTR entries for two texts: the accumulators misalign,
every later record's TTR is shifted, and the subsequent `df["TTR"] = ttrs`
aborts the whole batch with a length mismatch — the failing record's
fields are not simply 0, and the rest of the batch is affected. -/
theorem c8_lexical_partial_failure :
    lexPass (fun _ => some 3)
      (fun c => if c = "ok".toList then LexOutcome.failAfterTtr 1
                else LexOutcome.ok 2 20)
      ["hello there friend".toList, "ok".toList] =
      ([2, 1, 0], [20, 0], [3, 3]) ∧
    ([2, 1, 0] : List ℚ).length ≠
      (["hello there friend".toList, "ok".toList] : List PyStr).length := by
  exact ⟨rfl, by decide⟩

/- ───────────────────────── claim C10 ───────────────────────── -/

/-- Helper for C10: membership in the first-occurrence deduplication is
membership in the original list. -/
lemma mem_pyUnique (x : PyStr) (l : List PyStr) : x ∈ pyUnique l ↔ x ∈ l := by
  have key : ∀ (l' : List PyStr) (acc : List PyStr),
      (x ∈ List.foldl (fun acc y => if y ∈ acc then acc else acc ++ [y]) acc l') ↔
      (x ∈ acc ∨ x ∈ l') := by
    intro l'
    induction l' with
    | nil => intro acc; simp
    | cons y ys ih =>
      intro acc
      rw [List.foldl_cons, ih]
      by_cases hy : y ∈ acc
      · simp only [if_pos hy]
        constructor
        · rintro (h | h)
          · exact Or.inl h
          · exact Or.inr (List.mem_cons_of_mem y h)
        · rintro (h | h)
          · exact Or.inl h
          · rcases List.mem_cons.mp h with rfl | h
            · exact Or.inl hy
            · exact Or.inr h
      · simp only [if_neg hy, List.mem_append, List.mem_singleton]
        constructor
        · rintro ((h | rfl) | h)
          · exact Or.inl h
          · exact Or.inr (List.mem_cons_self _ _)
          · exact Or.inr (List.mem_cons_of_mem y h)
        · rintro (h | h)
          · exact Or.inl (Or.inl h)
          · rcases List.mem_cons.mp h with rfl | h
            · exact Or.inl (Or.inr rfl)
            · exact Or.inr h
  unfold pyUnique
  rw [key]
  simp

/-- C10: the aggregator only forms groups for speakers drawn from the
unique speaker values of the records themselves, so every group it reduces
is non-empty, the produced summary has a total turn count of at least 1,
and the `0` fallback branch of the average is unreachable — the mean is
always computed by the main branch. -/
theorem c10_groups_nonempty : ∀ (df : List FeatureRecord) (s : PyStr),
    s ∈ uniqueSpeakers df →
    df.filter (fun r => r.speaker = s) ≠ [] ∧
    1 ≤ (speakerStats df s).totalTurns ∧
    (speakerStats df s).avgWords =
      pyRound1 ((((df.filter (fun r => r.speaker = s)).map (·.wordCount)).sum : ℚ) /
        ((df.filter (fun r => r.speaker = s)).length : ℚ)) := by
  intro df s hs
  have hmem : s ∈ df.map (·.speaker) := (mem_pyUnique s _).mp hs
  obtain ⟨r, hr, hrs⟩ := List.mem_map.mp hmem
  have hfil : r ∈ df.filter (fun r => r.speaker = s) :=
    List.mem_filter.mpr ⟨hr, by simp [hrs]⟩
  have hne : df.filter (fun r => r.speaker = s) ≠ [] := List.ne_nil_of_mem hfil
  have hlen : 0 < (df.filter (fun r => r.speaker = s)).length :=
    List.length_pos.mpr hne
  refine ⟨hne, ?_, ?_⟩
  · exact hlen
  · unfold speakerStats
    simp only [if_pos hlen]

/-- C10 witness at a concrete single-record data frame. -/
theorem c10_groups_nonempty_witness :
    [(⟨"S00".toList, "hi there".toList, 2, false, 0, 0, 0⟩ : FeatureRecord)].filter
        (fun r => r.speaker = "S00".toList) ≠ [] ∧
    1 ≤ (speakerStats [⟨"S00".toList, "hi there".toList, 2, false, 0, 0, 0⟩]
        "S00".toList).totalTurns ∧
    (speakerStats [⟨"S00".toList, "hi there".toList, 2, false, 0, 0, 0⟩]
        "S00".toList).avgWords =
      pyRound1 (((([(⟨"S00".toList, "hi there".toList, 2, false, 0, 0, 0⟩ :
          FeatureRecord)].filter (fun r => r.speaker = "S00".toList)).map
          (·.wordCount)).sum : ℚ) /
        (([(⟨"S00".toList, "hi there".toList, 2, false, 0, 0, 0⟩ :
          FeatureRecord)].filter (fun r => r.speaker = "S00".toList)).length : ℚ)) :=
  c10_groups_nonempty [⟨"S00".toList, "hi there".toList, 2, false, 0, 0, 0⟩]
    "S00".toList (by decide)

/- ───────────────────────── claim C1 ───────────────────────── -/

/-- Helper for C1: a counted transition found in the sequence makes the row
total positive. -/
lemma transRowTotal_pos_of_pair (seq : List PyStr) (a : PyStr)
    (h : ∃ p ∈ seq.zip seq.tail, p.1 = a ∧ p.2 ≠ a) :
    0 < transRowTotal seq a := by
  obtain ⟨p, hp, h1, h2⟩ := h
  have hb : p.2 ∈ seq := List.mem_of_mem_tail (List.of_mem_zip hp).2
  have hbu : p.2 ∈ pyUnique seq := (mem_pyUnique p.2 seq).mpr hb
  have hcount : 0 < transCount seq a p.2 := by
    unfold transCount
    apply List.length_pos.mpr
    apply List.ne_nil_of_mem (a := p)
    apply List.mem_filter.mpr
    refine ⟨hp, ?_⟩
    have hne : p.1 ≠ p.2 := by rw [h1]; exact fun hx => h2 hx.symm
    have h2' : ¬ a = p.2 := fun hx => h2 hx.symm
    simp [hne, h1, h2']
  have hile : transCount seq a p.2 ≤ transRowTotal seq a := by
    unfold transRowTotal
    exact List.single_le_sum (fun x _ => Nat.zero_le x) _
      (List.mem_map_of_mem (fun t => transCount seq a t) hbu)
  omega

/-- Helper for C1: with no outgoing pair, every cell of the row count is 0. -/
lemma transRowTotal_zero_of_no_pair (seq : List PyStr) (a : PyStr)
    (h : ∀ p ∈ seq.zip seq.tail, p.1 = a → p.2 = a) :
    transRowTotal seq a = 0 := by
  unfold transRowTotal
  have hcell : ∀ t, transCount seq a t = 0 := by
    intro t
    unfold transCount
    rw [List.length_eq_zero, List.filter_eq_nil]
    intro p hp
    simp only [ne_eq, decide_eq_true_eq, not_and]
    intro hne h1 h2
    exact hne (h1.trans (h p hp h1).symm)
  have : (pyUnique seq).map (fun t => transCount seq a t) =
      (pyUnique seq).map (fun _ => 0) := by
    apply List.map_congr_left
    intro t _
    exact hcell t
  rw [this]
  simp

/-- C1: the transition-model builder never counts a consecutive pair with
the same speaker; every speaker with at least one outgoing transition to a
different speaker has a row summing exactly to 100 in rational arithmetic;
and the row of a speaker with zero outgoing transitions is all zeros. -/
theorem c1_transition_row_normalised : ∀ (seq : List PyStr) (a : PyStr),
    transCount seq a a = 0 ∧
    ((∃ p ∈ seq.zip seq.tail, p.1 = a ∧ p.2 ≠ a) → (transitionRow seq a).sum = 100) ∧
    ((∀ p ∈ seq.zip seq.tail, p.1 = a → p.2 = a) →
      ∀ x ∈ transitionRow seq a, x = 0) := by
  intro seq a
  refine ⟨?_, ?_, ?_⟩
  · unfold transCount
    rw [List.length_eq_zero, List.filter_eq_nil]
    intro p _
    simp only [ne_eq, decide_eq_true_eq, not_and]
    intro hne h1 h2
    exact hne (h1.trans h2.symm)
  · intro h
    have hpos := transRowTotal_pos_of_pair seq a h
    have hT : ((transRowTotal seq a : ℚ)) ≠ 0 := by
      exact_mod_cast Nat.pos_iff_ne_zero.mp hpos
    unfold transitionRow
    rw [if_pos hpos]
    have hmapeq : (pyUnique seq).map
        (fun t => (transCount seq a t : ℚ) / (transRowTotal seq a : ℚ) * 100) =
        (pyUnique seq).map
        (fun t => (transCount seq a t : ℚ) * (100 / (transRowTotal seq a : ℚ))) := by
      apply List.map_congr_left
      intro t _
      ring
    rw [hmapeq, List.sum_map_mul_right]
    have hsum : ((pyUnique seq).map (fun t => (transCount seq a t : ℚ))).sum =
        ((transRowTotal seq a : ℚ)) := by
      unfold transRowTotal
      rw [Nat.cast_list_sum, List.map_map]
      rfl
    rw [hsum]
    field_simp
  · intro h x hx
    have hz := transRowTotal_zero_of_no_pair seq a h
    unfold transitionRow at hx
    rw [if_neg (by omega)] at hx
    obtain ⟨t, -, ht⟩ := List.mem_map.mp hx
    exact ht.symm

/-- C1 witness at the spec's scenario sequence `[A, A, B, A, B, B]` plus a
single-speaker sequence whose row is all zeros. -/
theorem c1_transition_row_normalised_witness :
    (transitionRow ["S00".toList, "S00".toList, "S01".toList, "S00".toList,
      "S01".toList, "S01".toList] "S01".toList).sum = 100 ∧
    (∀ x ∈ transitionRow ["S02".toList, "S02".toList] "S02".toList, x = 0) :=
  ⟨(c1_transition_row_normalised _ "S01".toList).2.1
      ⟨("S01".toList, "S00".toList), by decide, by decide, by decide⟩,
   (c1_transition_row_normalised _ "S02".toList).2.2 (by decide)⟩

/- ───────────────────────── claim C4 ───────────────────────── -/

/-- Helper for C4: a pending skip in the scan of `pyCount` is the same as
counting in the dropped suffix. -/
lemma pyCountAux_eq_drop (pat : PyStr) : ∀ (n : Nat) (s : PyStr),
    pyCountAux pat n s = pyCountAux pat 0 (s.drop n) := by
  intro n
  induction n with
  | zero => intro s; rw [List.drop_zero]
  | succ m ih =>
    intro s
    rcases s with _ | ⟨c, cs⟩
    · rfl
    · rw [show pyCountAux pat (m + 1) (c :: cs) = pyCountAux pat m cs from rfl,
        ih cs, List.drop_succ_cons]

/-- Helper for C4: positions before `n` holding no occurrence can be
dropped without changing the total occurrence count. -/
lemma occAll_drop_of_no_occ (pat : PyStr) : ∀ (n : Nat) (s : PyStr),
    (∀ m < n, pat.isPrefixOf (s.drop m) = false) →
    occAll pat s = occAll pat (s.drop n) := by
  intro n
  induction n with
  | zero => intro s _; rw [List.drop_zero]
  | succ m ih =>
    intro s h
    rcases s with _ | ⟨c, cs⟩
    · rfl
    · have h0 : pat.isPrefixOf (c :: cs) = false := by
        have := h 0 (Nat.succ_pos m)
        rwa [List.drop_zero] at this
      rw [show occAll pat (c :: cs) =
          (if pat.isPrefixOf (c :: cs) then 1 else 0) + occAll pat cs from rfl]
      rw [h0, if_neg Bool.false_ne_true]
      simp only [Nat.zero_add, List.drop_succ_cons]
      exact ih cs (fun k hk => by
        have hkk := h (k + 1) (Nat.succ_lt_succ hk)
        rwa [List.drop_succ_cons] at hkk)

/-- Helper for C4: for a pattern none of whose occurrences can overlap a
later occurrence of itself, the left-to-right non-overlapping scan of
Python `str.count` counts exactly all occurrence positions. -/
lemma pyCount_eq_occAll (pat : PyStr) (hne : pat ≠ [])
    (hsf : ∀ t, pat.isPrefixOf t → ∀ j, 1 ≤ j → j < pat.length →
      pat.isPrefixOf (t.drop j) = false) :
    ∀ s, pyCount pat s = occAll pat s := by
  have key : ∀ (n : Nat) (s : PyStr), s.length ≤ n → pyCount pat s = occAll pat s := by
    intro n
    induction n with
    | zero =>
      intro s hs
      rw [List.length_eq_zero.mp (Nat.le_zero.mp hs)]
      rfl
    | succ m ih =>
      intro s hs
      rcases s with _ | ⟨c, cs⟩
      · rfl
      have hcs : cs.length ≤ m := by
        simp only [List.length_cons] at hs
        omega
      by_cases hpre : pat.isPrefixOf (c :: cs)
      · have hstep : pyCount pat (c :: cs) =
            1 + pyCountAux pat (pat.length - 1) cs := by
          unfold pyCount
          rw [show pyCountAux pat 0 (c :: cs) =
            if pat.isPrefixOf (c :: cs) then 1 + pyCountAux pat (pat.length - 1) cs
            else pyCountAux pat 0 cs from rfl, if_pos hpre]
        rw [hstep, pyCountAux_eq_drop]
        have hdrop : pyCount pat (cs.drop (pat.length - 1)) =
            occAll pat (cs.drop (pat.length - 1)) :=
          ih _ (by rw [List.length_drop]; omega)
        unfold pyCount at hdrop
        rw [hdrop]
        have hshift : occAll pat cs = occAll pat (cs.drop (pat.length - 1)) := by
          apply occAll_drop_of_no_occ
          intro k hk
          have hp1 : 1 ≤ pat.length := List.length_pos.mpr hne
          have happ := hsf (c :: cs) hpre (k + 1)
            (Nat.succ_le_succ (Nat.zero_le k)) (by omega)
          rwa [List.drop_succ_cons] at happ
        rw [show occAll pat (c :: cs) =
            (if pat.isPrefixOf (c :: cs) then 1 else 0) + occAll pat cs from rfl]
        rw [if_pos hpre, hshift]
      · have hstep : pyCount pat (c :: cs) = pyCount pat cs := by
          unfold pyCount
          rw [show pyCountAux pat 0 (c :: cs) =
            if pat.isPrefixOf (c :: cs) then 1 + pyCountAux pat (pat.length - 1) cs
            else pyCountAux pat 0 cs from rfl, if_neg hpre]
        rw [hstep, ih cs hcs]
        rw [show occAll pat (c :: cs) =
            (if pat.isPrefixOf (c :: cs) then 1 else 0) + occAll pat cs from rfl]
        rw [if_neg hpre]
        exact (Nat.zero_add _).symm
  exact fun s => key s.length s (Nat.le_refl _)

/-- Helper for C4: no occurrence of `(..)` overlaps a later occurrence. -/
lemma selfFree_double : ∀ t, ("(..)".toList).isPrefixOf t → ∀ j, 1 ≤ j →
    j < ("(..)".toList).length → ("(..)".toList).isPrefixOf (t.drop j) = false := by
  intro t hpre j h1 h2
  obtain ⟨t', ht⟩ := List.isPrefixOf_iff_prefix.mp hpre
  subst ht
  have h2' : j < 4 := by
    rw [show ("(..)".toList).length = 4 from rfl] at h2
    exact h2
  interval_cases j <;> simp [List.isPrefixOf]

/-- Helper for C4: no occurrence of `(...)` overlaps a later occurrence. -/
lemma selfFree_triple : ∀ t, ("(...)".toList).isPrefixOf t → ∀ j, 1 ≤ j →
    j < ("(...)".toList).length → ("(...)".toList).isPrefixOf (t.drop j) = false := by
  intro t hpre j h1 h2
  obtain ⟨t', ht⟩ := List.isPrefixOf_iff_prefix.mp hpre
  subst ht
  have h2' : j < 5 := by
    rw [show ("(...)".toList).length = 5 from rfl] at h2
    exact h2
  interval_cases j <;> simp [List.isPrefixOf]

/-- C4: the extracted long-pause count equals the number of occurrences of
the double-dot token plus the number of occurrences of the triple-dot
token; in particular, on a text with exactly one occurrence of each it
equals 2. -/
theorem c4_long_pause_count : ∀ (sp t : PyStr),
    (extractFeatures ⟨sp, t⟩).longPauses =
      occAll "(..)".toList t + occAll "(...)".toList t ∧
    (occAll "(..)".toList t = 1 → occAll "(...)".toList t = 1 →
      (extractFeatures ⟨sp, t⟩).longPauses = 2) := by
  intro sp t
  have h2 := pyCount_eq_occAll "(..)".toList (by decide) selfFree_double t
  have h3 := pyCount_eq_occAll "(...)".toList (by decide) selfFree_triple t
  have hmain : (extractFeatures ⟨sp, t⟩).longPauses =
      occAll "(..)".toList t + occAll "(...)".toList t := by
    show pyCount "(..)".toList t + pyCount "(...)".toList t =
      occAll "(..)".toList t + occAll "(...)".toList t
    rw [h2, h3]
  exact ⟨hmain, fun e2 e3 => by rw [hmain, e2, e3]⟩

/-- C4 witness on a text holding exactly one token of each kind. -/
theorem c4_long_pause_count_witness :
    (extractFeatures ⟨"S00".toList, "well (..) I mean (...) yes".toList⟩).longPauses = 2 :=
  (c4_long_pause_count "S00".toList "well (..) I mean (...) yes".toList).2
    (by decide) (by decide)

/- ───────────────────────── claims C6 and C9 ───────────────────────── -/

/-- Helper: appending one more piece to a non-empty join appends a single
space and the piece, exactly the accumulator update of the loop. -/
lemma sjoin_append_singleton : ∀ (ps : List PyStr) (x : PyStr), ps ≠ [] →
    sjoin (ps ++ [x]) = sjoin ps ++ ' ' :: x := by
  intro ps
  induction ps with
  | nil => intro x h; exact absurd rfl h
  | cons p qs ih =>
    intro x _
    rcases qs with _ | ⟨q, rs⟩
    · rfl
    · show sjoin (p :: q :: (rs ++ [x])) = (p ++ ' ' :: sjoin (q :: rs)) ++ ' ' :: x
      rw [show sjoin (p :: q :: (rs ++ [x])) =
          p ++ ' ' :: sjoin (q :: (rs ++ [x])) from rfl]
      rw [show (q :: (rs ++ [x]) : List PyStr) = (q :: rs) ++ [x] from rfl]
      rw [ih x (by simp)]
      simp

/-- Helper for C6/C9: the fold preserves the decomposition invariant — every
emitted turn text is the stripped single-space join of pieces drawn from
the input lines, and the open accumulator is such a join un-stripped. -/
lemma foldl_decomp (L : List PyStr) : ∀ (lines : List PyStr) (st : PState),
    (∀ l ∈ lines, l ∈ L) →
    (∀ u ∈ st.data, ∃ ps, ps ≠ [] ∧ (∀ p ∈ ps, pieceFrom L p) ∧
      u.text = pyStrip (sjoin ps)) →
    (∀ c t, st.cur = some (c, t) → ∃ ps, ps ≠ [] ∧ (∀ p ∈ ps, pieceFrom L p) ∧
      t = sjoin ps) →
    (∀ u ∈ (List.foldl pstep st lines).data, ∃ ps, ps ≠ [] ∧
      (∀ p ∈ ps, pieceFrom L p) ∧ u.text = pyStrip (sjoin ps)) ∧
    (∀ c t, (List.foldl pstep st lines).cur = some (c, t) → ∃ ps, ps ≠ [] ∧
      (∀ p ∈ ps, pieceFrom L p) ∧ t = sjoin ps) := by
  intro lines
  induction lines with
  | nil => exact fun st _ hdata hcur => ⟨hdata, hcur⟩
  | cons l ls ih =>
    intro st hmem hdata hcur
    have hl : l ∈ L := hmem l (List.mem_cons_self l ls)
    rw [List.foldl_cons]
    apply ih (pstep st l) (fun x hx => hmem x (List.mem_cons_of_mem l hx))
    · rcases pstep_cases st l with heq | ⟨spk, rem, hm, heq⟩ | ⟨hb, hm, heq⟩
      · rw [heq]; exact hdata
      · rw [heq]
        intro u hu
        rcases List.mem_append.mp hu with hu' | hu'
        · exact hdata u hu'
        · rcases hc : st.cur with _ | ⟨c, t⟩
          · rw [hc] at hu'; cases hu'
          · rw [hc] at hu'
            rcases List.mem_singleton.mp hu' with rfl
            obtain ⟨ps, hne, hpieces, ht⟩ := hcur c t hc
            exact ⟨ps, hne, hpieces, by rw [show (Turn.mk c (pyStrip t)).text =
              pyStrip t from rfl, ht]⟩
      · rw [heq]; exact hdata
    · rcases pstep_cases st l with heq | ⟨spk, rem, hm, heq⟩ | ⟨hb, hm, heq⟩
      · rw [heq]; exact hcur
      · rw [heq]
        intro c t hct
        injection hct with hpair
        have ht : t = rem := by
          have hsnd := congrArg Prod.snd hpair
          exact hsnd.symm
        refine ⟨[rem], by simp, ?_, by rw [ht]; rfl⟩
        intro p hp
        rcases List.mem_singleton.mp hp with rfl
        exact Or.inl ⟨l, hl, spk, hm⟩
      · rw [heq]
        intro c t hct
        rcases hc : st.cur with _ | ⟨c', t'⟩
        · rw [hc] at hct; cases hct
        · rw [hc] at hct
          rw [show contAppend (some (c', t')) (pyStrip l) =
            some (c', t' ++ ' ' :: pyStrip l) from rfl] at hct
          injection hct with hpair
          have ht : t = t' ++ ' ' :: pyStrip l := by
            have := congrArg Prod.snd hpair
            exact this.symm
          obtain ⟨ps, hne, hpieces, ht'⟩ := hcur c' t' hc
          refine ⟨ps ++ [pyStrip l], by simp, ?_, ?_⟩
          · intro p hp
            rcases List.mem_append.mp hp with hp' | hp'
            · exact hpieces p hp'
            · rcases List.mem_singleton.mp hp' with rfl
              exact Or.inr ⟨l, hl, rfl, hm⟩
          · rw [ht, ht', sjoin_append_singleton ps (pyStrip l) hne]

/-- Helper for C6/C9: every turn emitted by the assembler has text equal to
the stripped single-space join of one or more pieces, each piece being the
remainder of a tag line or a stripped non-tag line of the input. -/
lemma parseTurns_decomp : ∀ (lines : List PyStr) (u : Turn),
    u ∈ parseTurns lines →
    ∃ ps, ps ≠ [] ∧ (∀ p ∈ ps, pieceFrom lines p) ∧
      u.text = pyStrip (sjoin ps) := by
  intro lines u hu
  obtain ⟨hdata, hcur⟩ := foldl_decomp lines lines ⟨false, none, []⟩
    (fun _ h => h) (by intro u hu; cases hu) (by intro c t h; cases h)
  have hu' : u ∈ (List.foldl pstep ⟨false, none, []⟩ lines).data ++
      flushCur (List.foldl pstep ⟨false, none, []⟩ lines).cur := hu
  rcases List.mem_append.mp hu' with h | h
  · exact hdata u h
  · rcases hc : (List.foldl pstep ⟨false, none, []⟩ lines).cur with _ | ⟨c, t⟩
    · rw [hc] at h; cases h
    · rw [hc] at h
      rcases List.mem_singleton.mp h with rfl
      obtain ⟨ps, hne, hpieces, ht⟩ := hcur c t hc
      exact ⟨ps, hne, hpieces, by rw [show (Turn.mk c (pyStrip t)).text =
        pyStrip t from rfl, ht]⟩

/-- C6 counterexample: the claim's Turn invariant says the text is never
empty once finalized, but the input consisting of the single bare tag line
`S00:` yields exactly one emitted turn whose text is the empty string. -/
theorem c6_counterexample :
    parseTurns ["S00:".toList] = [⟨"S00".toList, []⟩] := by
  decide

/-- C6 amended: every emitted Turn's text is the whitespace-stripped
single-space concatenation of one or more pieces attributed to the turn
(the tag line's remainder followed by its continuation lines, each a
stripped raw input line); the text may be empty when the remainder is
empty and no continuation follows. -/
theorem c6_amended_turn_text : ∀ (lines : List PyStr) (u : Turn),
    u ∈ parseTurns lines →
    ∃ ps, ps ≠ [] ∧ (∀ p ∈ ps, pieceFrom lines p) ∧
      u.text = pyStrip (sjoin ps) :=
  parseTurns_decomp

/-- C6 amended witness on a two-line turn. -/
theorem c6_amended_turn_text_witness :
    ∃ ps, ps ≠ [] ∧
      (∀ p ∈ ps, pieceFrom ["S00: hi".toList, "and  more".toList] p) ∧
      ("hi and  more".toList : PyStr) = pyStrip (sjoin ps) := by
  have h := c6_amended_turn_text ["S00: hi".toList, "and  more".toList]
    ⟨"S00".toList, "hi and  more".toList⟩ (by decide)
  exact h

/-- Helper for C9: splitting distributes over a single-space join point. -/
lemma wordsAux_append_space : ∀ (a acc b : PyStr),
    wordsAux (a ++ ' ' :: b) acc = wordsAux a acc ++ wordsAux b [] := by
  intro a
  induction a with
  | nil =>
    intro acc b
    show wordsAux (' ' :: b) acc = wordsAux [] acc ++ wordsAux b []
    simp only [wordsAux]
    rw [if_pos (show pyIsSpace ' ' = true from rfl)]
    by_cases hacc : acc = []
    · rw [if_pos hacc, if_pos hacc]; rfl
    · rw [if_neg hacc, if_neg hacc]; rfl
  | cons c cs ih =>
    intro acc b
    show wordsAux (c :: (cs ++ ' ' :: b)) acc = wordsAux (c :: cs) acc ++ wordsAux b []
    simp only [wordsAux]
    by_cases hc : pyIsSpace c
    · rw [if_pos hc, if_pos hc]
      by_cases hacc : acc = []
      · rw [if_pos hacc, if_pos hacc, ih]
      · rw [if_neg hacc, if_neg hacc, ih]; rfl
    · rw [if_neg hc, if_neg hc, ih]

/-- Helper for C9: leading whitespace does not change the split. -/
lemma wordsAux_dropWhile : ∀ s : PyStr,
    wordsAux (s.dropWhile pyIsSpace) [] = wordsAux s [] := by
  intro s
  induction s with
  | nil => rfl
  | cons c cs ih =>
    by_cases hc : pyIsSpace c
    · rw [List.dropWhile_cons_of_pos hc, ih]
      symm
      simp only [wordsAux]
      rw [if_pos hc]
      simp
    · rw [List.dropWhile_cons_of_neg hc]

/-- Helper for C9: an all-whitespace string splits to at most the pending
accumulated word. -/
lemma wordsAux_all_space : ∀ (sp : PyStr), (∀ c ∈ sp, pyIsSpace c) →
    ∀ acc, wordsAux sp acc = if acc = [] then [] else [acc] := by
  intro sp
  induction sp with
  | nil => intro _ acc; rfl
  | cons c cs ih =>
    intro h acc
    have hc : pyIsSpace c = true := h c (List.mem_cons_self c cs)
    simp only [wordsAux]
    rw [if_pos hc]
    have hrec := ih (fun x hx => h x (List.mem_cons_of_mem c hx)) []
    rw [if_pos rfl] at hrec
    by_cases hacc : acc = []
    · rw [if_pos hacc, if_pos hacc, hrec]
    · rw [if_neg hacc, if_neg hacc, hrec]

/-- Helper for C9: trailing whitespace does not change the split. -/
lemma wordsAux_append_all_space : ∀ (s sp : PyStr), (∀ c ∈ sp, pyIsSpace c) →
    ∀ acc, wordsAux (s ++ sp) acc = wordsAux s acc := by
  intro s
  induction s with
  | nil =>
    intro sp h acc
    show wordsAux sp acc = wordsAux [] acc
    rw [wordsAux_all_space sp h acc]
    rfl
  | cons c cs ih =>
    intro sp h acc
    show wordsAux (c :: (cs ++ sp)) acc = wordsAux (c :: cs) acc
    simp only [wordsAux]
    by_cases hc : pyIsSpace c
    · rw [if_pos hc, if_pos hc]
      by_cases hacc : acc = []
      · rw [if_pos hacc, if_pos hacc, ih sp h []]
      · rw [if_neg hacc, if_neg hacc, ih sp h []]
    · rw [if_neg hc, if_neg hc, ih sp h (acc ++ [c])]

/-- Helper for C9: stripping does not change the split into words. -/
lemma pyWords_pyStrip (s : PyStr) : pyWords (pyStrip s) = pyWords s := by
  have hsp : ∀ c ∈ ((s.dropWhile pyIsSpace).reverse.takeWhile pyIsSpace).reverse,
      pyIsSpace c := by
    intro c hc
    rw [List.mem_reverse] at hc
    exact List.mem_takeWhile_imp hc
  have hsplit : pyStrip s ++
      ((s.dropWhile pyIsSpace).reverse.takeWhile pyIsSpace).reverse =
      s.dropWhile pyIsSpace := by
    have h := List.takeWhile_append_dropWhile pyIsSpace
      (s.dropWhile pyIsSpace).reverse
    have h2 := congrArg List.reverse h
    rw [List.reverse_append, List.reverse_reverse] at h2
    exact h2
  have h1 : wordsAux (s.dropWhile pyIsSpace) [] = wordsAux s [] := wordsAux_dropWhile s
  show wordsAux (pyStrip s) [] = wordsAux s []
  rw [← h1, ← hsplit]
  exact (wordsAux_append_all_space _ _ hsp []).symm

/-- Helper for C9: the split of a single-space join is the concatenation of
the splits of the pieces. -/
lemma pyWords_sjoin : ∀ ps : List PyStr,
    pyWords (sjoin ps) = (ps.map pyWords).flatten := by
  intro ps
  induction ps with
  | nil => rfl
  | cons p qs ih =>
    rcases qs with _ | ⟨q, rs⟩
    · show pyWords p = (List.map pyWords [p]).flatten
      simp
    · show pyWords (p ++ ' ' :: sjoin (q :: rs)) = _
      rw [show pyWords (p ++ ' ' :: sjoin (q :: rs)) =
          wordsAux (p ++ ' ' :: sjoin (q :: rs)) [] from rfl]
      rw [wordsAux_append_space p [] (sjoin (q :: rs))]
      rw [show (wordsAux p [] : List PyStr) = pyWords p from rfl,
        show (wordsAux (sjoin (q :: rs)) [] : List PyStr) = pyWords (sjoin (q :: rs)) from rfl]
      rw [ih]
      simp

/-- C9: every emitted record's word count equals the number of tokens found
by re-splitting its final text on whitespace; moreover its text is built
with single-space joins of its constituent pieces and the word count is the
sum of the piece-wise token counts — the single-space joins lose no token. -/
theorem c9_word_count_consistent : ∀ (lines : List PyStr) (r : FeatureRecord),
    r ∈ parse_transcript lines →
    r.wordCount = (pyWords r.text).length ∧
    ∃ ps, ps ≠ [] ∧ (∀ p ∈ ps, pieceFrom lines p) ∧
      r.text = pyStrip (sjoin ps) ∧
      r.wordCount = (ps.map (fun p => (pyWords p).length)).sum := by
  intro lines r hr
  obtain ⟨u, hu, hru⟩ := List.mem_map.mp hr
  obtain ⟨ps, hne, hpieces, htext⟩ := parseTurns_decomp lines u hu
  have hwc : r.wordCount = (pyWords r.text).length := by rw [← hru]; rfl
  have htext' : r.text = u.text := by rw [← hru]; rfl
  refine ⟨hwc, ps, hne, hpieces, by rw [htext']; exact htext, ?_⟩
  rw [hwc, htext', htext, pyWords_pyStrip, pyWords_sjoin]
  rw [List.length_flatten, List.map_map]
  rfl

/-- C9 witness on a concrete two-line turn: word count 3 from pieces of
token counts 1 and 2. -/
theorem c9_word_count_consistent_witness :
    (extractFeatures ⟨"S00".toList, "hi and more".toList⟩).wordCount =
      (pyWords (extractFeatures ⟨"S00".toList, "hi and more".toList⟩).text).length ∧
    ∃ ps, ps ≠ [] ∧
      (∀ p ∈ ps, pieceFrom ["S00: hi".toList, "and more".toList] p) ∧
      (extractFeatures ⟨"S00".toList, "hi and more".toList⟩).text =
        pyStrip (sjoin ps) ∧
      (extractFeatures ⟨"S00".toList, "hi and more".toList⟩).wordCount =
        (ps.map (fun p => (pyWords p).length)).sum :=
  c9_word_count_consistent ["S00: hi".toList, "and more".toList]
    (extractFeatures ⟨"S00".toList, "hi and more".toList⟩) (by decide)
